import Mathlib

/-!
Verification of the Burrows-Wheeler transform codec implemented in
`src/Advanced Data Structures/Burrows-Wheeler transform/bwt.cpp`
(class `bwt::BurrowsWheelerTransform`).

Bytes are modelled as `Nat` (values `0..255`), byte buffers as `List Nat`,
and the 256-entry working arrays (`counters`, `offsetTable`, `count`) as
functions `Nat → Nat` updated pointwise.  Because every block the stream
loops actually process is read with `fpIn.read(..., BLOCK_SIZE)`, the
static buffer `block` always has `block.size() == blockSize` for a
processed block; the per-block functions below are parametrised by the
block itself, and every wrap-around therefore uses the block length.
-/

set_option maxRecDepth 16384

namespace BWT

/-- Compile-time block size from `bwt.hpp`: `BLOCK_SIZE = 4096`. -/
def BLOCK_SIZE : Nat := 4096

/-! ## Move-to-front stage (`doMTF` / `undoMTF`) -/

/-- The 256-entry recency list initialised by
`std::iota(list.begin(), list.end(), 0)`: the identity list `[0, ..., 255]`. -/
def initList : List Nat := List.range 256

/-- Loop body of `doMTF`, returning the emitted ranks together with the final
recency list.  One step does, exactly as the C++ does:
`idx = distance(begin, find(begin, end, last[i]))`;
`last[i] = (unsigned char) idx`; `list.erase(it)`;
`list.insert(list.begin(), last[i])`.  Note that the value pushed to the
front of the list is the already-overwritten `last[i]` (the rank), not the
original byte.  When `find` fails (`it = end`) the C++ `erase(end)` is
undefined behaviour; it is modelled as a no-op (`eraseIdx` out of range). -/
def doMTFGo : List Nat → List Nat → List Nat × List Nat
  | l, [] => ([], l)
  | l, b :: rest =>
    let idx := List.indexOf b l
    let r := idx % 256
    let res := doMTFGo (r :: l.eraseIdx idx) rest
    (r :: res.1, res.2)

/-- `doMTF` on a buffer: run the loop starting from the identity list.
The C++ function also returns the status `0` (see `doMTFRet`). -/
def doMTF (last : List Nat) : List Nat := (doMTFGo initList last).1

/-- The `int` status returned by `doMTF`: the function body ends in
`return 0` with no other return statement. -/
def doMTFRet (_last : List Nat) : Int := 0

/-- Loop body of `undoMTF`: `ch = list[last[i]]`; `last[i] = ch`;
`list.erase(list.begin() + last[i])` — which, after the overwrite, erases at
index `ch` (the decoded byte used as a position), not at the input rank —
then `list.insert(list.begin(), ch)`. -/
def undoMTFGo : List Nat → List Nat → List Nat × List Nat
  | l, [] => ([], l)
  | l, r :: rest =>
    let ch := l.getD r 0
    let res := undoMTFGo (ch :: l.eraseIdx ch) rest
    (ch :: res.1, res.2)

/-- `undoMTF` on a buffer: run the loop starting from the identity list. -/
def undoMTF (last : List Nat) : List Nat := (undoMTFGo initList last).1

/-! ## Forward transform, one block -/

/-- Exclusive prefix-sum table built by
`offsetTable[0] = 0; offsetTable[i] = offsetTable[i-1] + counters[i-1]`. -/
def offTable (cnt : Nat → Nat) : Nat → Nat
  | 0 => 0
  | i + 1 => offTable cnt i + cnt i

/-- The byte histogram built by the loop `counters[block[i]]++`. -/
def counters (block : List Nat) : Nat → Nat := fun b => block.count b

/-- The counting-scatter loop pattern `arr[offsetTable[key(x)]++] = x`,
threading the offset table and the destination buffer. -/
def scatter (key : Nat → Nat) : List Nat → (Nat → Nat) × List Nat → (Nat → Nat) × List Nat
  | [], st => st
  | x :: xs, (off, v) =>
    scatter key xs (Function.update off (key x) (off (key x) + 1), v.set (off (key x)) x)

/-- First scatter pass of `transform`: bucket every rotation start `i` by the
byte that follows it, `block[i + 1]`, via `v[offsetTable[block[i+1]]++] = i`
for `i = 0 .. blockSize - 2`, and finally place the last rotation in the
bucket of `block[0]` by `v[offsetTable[block[0]]] = blockSize - 1` (the final
store does not bother incrementing the offset; the stored buffer is the same
as one more scatter step). -/
def buildV (block : List Nat) : List Nat :=
  let n := block.length
  let st := scatter (fun i => block.getD (i + 1) 0) (List.range (n - 1))
    (offTable (counters block), List.replicate n 0)
  st.2.set (st.1 (block.getD 0 0)) (n - 1)

/-- Second scatter pass of `transform`: re-bucket the entries of `v` by the
byte at the rotation start itself, `rotationIdx[offsetTable[block[j]]++] = j`,
after re-initialising the offset table. -/
def buildRotationIdx0 (block : List Nat) (v : List Nat) : List Nat :=
  (scatter (fun j => block.getD j 0) v
    (offTable (counters block), List.replicate block.length 0)).2

/-- The two-byte prefix of the rotation starting at `r`:
`(block[r], block[(r + 1) % blockSize])`. -/
def keyPair (block : List Nat) (r : Nat) : Nat × Nat :=
  (block.getD r 0, block.getD ((r + 1) % block.length) 0)

/-- The loop of `comparePresorted`, comparing bytes at cyclically increasing
offsets while `fuel` iterations remain. -/
def cmpFrom (block : List Nat) : Nat → Nat → Nat → Int
  | 0, _, _ => 0
  | fuel + 1, o1, o2 =>
    let c1 := block.getD (o1 % block.length) 0
    let c2 := block.getD (o2 % block.length) 0
    if c1 ≠ c2 then (if c1 > c2 then 1 else -1)
    else cmpFrom block fuel (o1 + 1) (o2 + 1)

/-- `comparePresorted`: the rotations at `s1` and `s2` already agree on their
first two bytes; compare the remaining `blockSize - 2` bytes starting at
offset 2, wrapping cyclically at the block length. -/
def comparePresorted (block : List Nat) (s1 s2 : Nat) : Int :=
  cmpFrom block (block.length - 2) (s1 + 2) (s2 + 2)

/-- The refinement loop of `transform` for an arbitrary run-sorting function
`sort`: walk the rotation array in maximal runs of rotations sharing the same
two-byte prefix (the nested `i`, `j`, `k` loops walk exactly those runs,
because the array is already bucketed by that prefix), and sort each run with
`sort` — standing for the `qsort(..., comparePresorted)` call, whose order on
comparator-equal elements (byte-identical rotations) is **unspecified** by
the C library.  `QsortSpec` below characterises the behaviours `qsort` may
exhibit; theorems about the refined array quantify over all of them.  The
first argument is fuel, instantiated with the list length by `refineRuns`;
each recursive call drops at least one element, so the fuel never runs out. -/
def refineRunsWith (sort : List Nat → List Nat) (block : List Nat) : Nat → List Nat → List Nat
  | _, [] => []
  | 0, l => l
  | fuel + 1, r :: rest =>
    sort (r :: rest.takeWhile (fun x => decide (keyPair block x = keyPair block r))) ++
    refineRunsWith sort block fuel
      (rest.dropWhile (fun x => decide (keyPair block x = keyPair block r)))

/-- What `qsort` with comparator `comparePresorted` guarantees about the
sorted run, and nothing more: the output is a permutation of the input,
pairwise non-descending under the comparator.  Comparator-equal elements
(byte-identical rotations) may come out in any order. -/
def QsortSpec (block : List Nat) (sort : List Nat → List Nat) : Prop :=
  ∀ l : List Nat, (sort l).Perm l ∧
    (sort l).Pairwise (fun a b => comparePresorted block a b ≤ 0)

/-- The refinement loop of the executable model.  To compute anything the
model must pick one `qsort`-compliant behaviour; it uses a stable insertion
sort (see `refineRunsGo_eq_with` and `insertionSort_qsortSpec`: this is one
instance of `QsortSpec`).  Properties of the sorted rotation order are
proved against `refineRunsWith` for every `QsortSpec`-compliant sort, not
against this particular choice. -/
def refineRunsGo (block : List Nat) : Nat → List Nat → List Nat
  | _, [] => []
  | 0, l => l
  | fuel + 1, r :: rest =>
    List.insertionSort (fun a b => comparePresorted block a b ≤ 0)
      (r :: rest.takeWhile (fun x => decide (keyPair block x = keyPair block r))) ++
    refineRunsGo block fuel (rest.dropWhile (fun x => decide (keyPair block x = keyPair block r)))

/-- The refinement pass over the whole partially sorted rotation array. -/
def refineRuns (block : List Nat) (l : List Nat) : List Nat :=
  refineRunsGo block l.length l

/-- The fully refined sorted-rotation array of one block. -/
def rotationIdx (block : List Nat) : List Nat :=
  refineRuns block (buildRotationIdx0 block (buildV block))

/-- The loop `if (rotationIdx[i] == 0) s0Idx = i;` starting from `s0Idx = 0`. -/
def findS0 (ridx : List Nat) : Nat :=
  (List.range ridx.length).foldl (fun s i => if ridx.getD i 1 = 0 then i else s) 0

/-- One block of the forward transform without the MTF stage: the pair
`(s0Idx, last)` with
`last[i] = rotationIdx[i] != 0 ? block[rotationIdx[i] - 1] : block[blockSize - 1]`. -/
def transformBlock (block : List Nat) : Nat × List Nat :=
  let ridx := rotationIdx block
  (findS0 ridx,
   ridx.map (fun r => if r ≠ 0 then block.getD (r - 1) 0 else block.getD (block.length - 1) 0))

/-- One block of the forward transform, with the optional MTF stage applied
to the last column when `method` is `WITH_MTF`. -/
def transformBlockM (method : Bool) (block : List Nat) : Nat × List Nat :=
  let p := transformBlock block
  (p.1, if method then doMTF p.2 else p.2)

/-! ## Inverse transform, one block -/

/-- The loop `pred[i] = count[block[i]]++` of `reverseTransform`, threading
the histogram and collecting the predecessor ranks. -/
def predCounts : List Nat → (Nat → Nat) → List Nat × (Nat → Nat)
  | [], cnt => ([], cnt)
  | b :: rest, cnt =>
    let res := predCounts rest (Function.update cnt b (cnt b + 1))
    (cnt b :: res.1, res.2)

/-- The backward walk of `reverseTransform`: for `j = blockSize` down to `1`,
`unrotated[j-1] = block[i]; i = pred[i] + count[block[i]]`, accumulating the
output from the back. -/
def reverseWalk (col pred : List Nat) (off : Nat → Nat) : Nat → Nat → List Nat → List Nat
  | 0, _, acc => acc
  | j + 1, i, acc =>
    reverseWalk col pred off j (pred.getD i 0 + off (col.getD i 0)) (col.getD i 0 :: acc)

/-- One block of the inverse transform without the MTF stage: build `pred`
and the histogram in one pass, turn the histogram into exclusive prefix sums
(the `sum`/`tmp` loop computes exactly `offTable`), then walk backward from
`s0Idx` for `blockSize` steps. -/
def reverseTransformBlock (s0 : Nat) (col : List Nat) : List Nat :=
  let pc := predCounts col (fun _ => 0)
  reverseWalk col pc.1 (offTable pc.2) col.length s0 []

/-- One block of the inverse transform, with the optional MTF decode applied
to the read column first when `method` is `WITH_MTF`. -/
def reverseBlockM (method : Bool) (s0 : Nat) (col : List Nat) : List Nat :=
  reverseTransformBlock s0 (if method then undoMTF col else col)

/-- One block pushed through the whole codec:
forward transform (with optional MTF), then inverse (with optional MTF). -/
def roundTripBlock (method : Bool) (block : List Nat) : List Nat :=
  let p := transformBlockM method block
  reverseBlockM method p.1 p.2

/-! ## Stream-level codec -/

/-- An `std::ifstream` as the codec observes it: an open flag (queried once,
up front) and the byte contents. -/
structure InFile where
  isOpen : Bool
  data : List Nat

/-- An `std::ofstream` as the codec uses it: an open flag and the bytes
written so far. -/
structure OutFile where
  isOpen : Bool
  written : List Nat

/-- The 4 bytes stored by `fpOut.write((char*)&s0Idx, sizeof(s0Idx))` for the
4-byte `unsigned int s0Idx`, in host order (little-endian). -/
def encode4 (x : Nat) : List Nat :=
  [x % 256, x / 256 % 256, x / 65536 % 256, x / 16777216 % 256]

/-- The `unsigned int` reassembled by `fpIn.read((char*)&s0Idx, sizeof(s0Idx))`
from 4 host-order bytes. -/
def decode4 (bs : List Nat) : Nat :=
  bs.getD 0 0 + 256 * bs.getD 1 0 + 65536 * bs.getD 2 0 + 16777216 * bs.getD 3 0

/-- One on-stream record, as written by the two `fpOut.write` calls for a
processed block: the 4 bytes of `s0Idx` followed immediately by the
(possibly MTF-coded) last column of the block. -/
def record (method : Bool) (block : List Nat) : List Nat :=
  encode4 (transformBlockM method block).1 ++ (transformBlockM method block).2

/-- The `while (fpIn.read(block.data(), BLOCK_SIZE))` loop of `transform`: an
iteration runs only when the read succeeds, i.e. only when a full
`BLOCK_SIZE` bytes were available (then `gcount() == BLOCK_SIZE`); the block
record — `s0Idx` as 4 raw bytes followed by the `blockSize` bytes of `last` —
is appended to the output; a shorter trailing read fails the stream and ends
the loop without processing the remaining bytes. -/
def transformLoop (method : Bool) (data : List Nat) : List Nat :=
  if _h : BLOCK_SIZE ≤ data.length then
    record method (data.take BLOCK_SIZE) ++ transformLoop method (data.drop BLOCK_SIZE)
  else []
termination_by data.length
decreasing_by simp only [List.length_drop]; simp only [BLOCK_SIZE] at *; omega

/-- `BurrowsWheelerTransform::transform`: fail with `-1` up front when either
stream is not open (writing nothing); otherwise run the block loop and return
`0`.  The only other `return -1` is behind `doMTF(last) != 0`, which never
fires because `doMTF` always returns `0`. -/
def transform (fin : InFile) (fout : OutFile) (method : Bool) : Int × OutFile :=
  if !(fin.isOpen && fout.isOpen) then (-1, fout)
  else (0, ⟨fout.isOpen, fout.written ++ transformLoop method fin.data⟩)

/-- The `while (fpIn.read(&s0Idx, sizeof(s0Idx)))` loop of `reverseTransform`:
a block is processed whenever a full 4-byte `s0Idx` could be read; the
following read of up to `BLOCK_SIZE` bytes sets `blockSize = gcount()`, the
number of bytes actually obtained; when that read was short the stream is
left failed, so the next 4-byte read fails and the loop stops. -/
def reverseLoop (method : Bool) (data : List Nat) : List Nat :=
  if _h : 4 ≤ data.length then
    reverseBlockM method (decode4 (data.take 4)) ((data.drop 4).take BLOCK_SIZE) ++
      (if BLOCK_SIZE ≤ (data.drop 4).length then reverseLoop method ((data.drop 4).drop BLOCK_SIZE)
       else [])
  else []
termination_by data.length
decreasing_by simp only [List.length_drop]; simp only [BLOCK_SIZE] at *; omega

/-- `BurrowsWheelerTransform::reverseTransform`: fail with `-1` up front when
either stream is not open (writing nothing); otherwise run the block loop and
return `0`.  As in `transform`, the `undoMTF(block) != 0` failure branch is
dead because `undoMTF` always returns `0`. -/
def reverseTransform (fin : InFile) (fout : OutFile) (method : Bool) : Int × OutFile :=
  if !(fin.isOpen && fout.isOpen) then (-1, fout)
  else (0, ⟨fout.isOpen, fout.written ++ reverseLoop method fin.data⟩)

/-- The blocks actually processed by the `transform` loop: the maximal run of
full-`BLOCK_SIZE` chunks from the front of the input; a shorter trailing
remainder is never processed. -/
def fullChunks (data : List Nat) : List (List Nat) :=
  if _h : BLOCK_SIZE ≤ data.length then data.take BLOCK_SIZE :: fullChunks (data.drop BLOCK_SIZE)
  else []
termination_by data.length
decreasing_by simp only [List.length_drop]; simp only [BLOCK_SIZE] at *; omega

/-! ## Specification-side notions used to state the theorems -/

/-- The cyclic rotation of the block starting at offset `r`, materialised as
a byte string: `rotation block r = [block[r % n], block[(r+1) % n], ...]`. -/
def rotation (block : List Nat) (r : Nat) : List Nat :=
  (List.range block.length).map (fun i => block.getD ((r + i) % block.length) 0)

/-- Strict order on rotation start offsets: lexicographically smaller
rotation string, with ties between byte-identical rotations broken by the
smaller start offset. -/
def rotBefore (block : List Nat) (a b : Nat) : Prop :=
  List.Lex (· < ·) (rotation block a) (rotation block b) ∨
    (rotation block a = rotation block b ∧ a < b)

/-- Non-strict rotation order: lexicographically smaller rotation string, or
byte-identical rotations (in which case no relative order is promised). -/
def rotLe (block : List Nat) (a b : Nat) : Prop :=
  List.Lex (· < ·) (rotation block a) (rotation block b) ∨
    rotation block a = rotation block b

/-- Number of occurrences of `col[i]` strictly before position `i` — the
stable per-symbol occurrence counter of the inverse transform. -/
def occBefore (col : List Nat) (i : Nat) : Nat :=
  (col.take i).count (col.getD i 0)

/-- Number of bytes of `col` with value strictly below `b`: the prefix sum of
the byte histogram at `b`. -/
def histBelow (col : List Nat) (b : Nat) : Nat :=
  col.countP (fun x => decide (x < b))

/-- One step of the LF-mapping walk, in specification form:
`position = predecessorRank[position] + offsetTable[lastColumn[position]]`. -/
def lfStep (col : List Nat) (i : Nat) : Nat :=
  occBefore col i + histBelow col (col.getD i 0)

/-- The position reached after `k` LF-mapping steps from `s0`. -/
def lfPos (col : List Nat) (s0 : Nat) : Nat → Nat
  | 0 => s0
  | k + 1 => lfStep col (lfPos col s0 k)

/-! ### Specification-side notions for the rotation sort -/

/-- Items with key value `< c`: the start of the bucket of key `c` in a
counting sort of `items` by `key`. -/
def baseOff (key : Nat → Nat) (items : List Nat) (c : Nat) : Nat :=
  items.countP (fun x => decide (key x < c))

/-- Number of items with key value exactly `c`. -/
def cntKey (key : Nat → Nat) (items : List Nat) (c : Nat) : Nat :=
  items.countP (fun x => decide (key x = c))

/-- The first `K` buckets of a stable counting sort of `items` by `key`,
concatenated in key order, each bucket keeping the arrival order. -/
def bucketsUpto (key : Nat → Nat) (items : List Nat) (K : Nat) : List Nat :=
  (List.range K).flatMap (fun c => items.filter (fun x => decide (key x = c)))

/-- All 256 buckets: the result of one stable counting-scatter pass. -/
def buckets (key : Nat → Nat) (items : List Nat) : List Nat :=
  bucketsUpto key items 256

/-- The byte string read cyclically from `block` starting at offset `o`,
for `fuel` bytes — the sequence inspected by `comparePresorted`. -/
def seqFrom (block : List Nat) (o : Nat) : Nat → List Nat
  | 0 => []
  | fuel + 1 => block.getD (o % block.length) 0 :: seqFrom block (o + 1) fuel

/-- Strict lexicographic order on two-byte prefixes. -/
def pairLt (p q : Nat × Nat) : Prop :=
  p.1 < q.1 ∨ (p.1 = q.1 ∧ p.2 < q.2)

/-- The order in which the two bucket passes leave the rotation array:
by two-byte prefix, ties by ascending start offset. -/
def ord12 (block : List Nat) (a b : Nat) : Prop :=
  pairLt (keyPair block a) (keyPair block b) ∨ (keyPair block a = keyPair block b ∧ a < b)

end BWT

namespace BWT

/-! ## Claim theorems: the MTF defect -/

/-- C2: the claim fails on the code.  Move-to-front decode is not the inverse
of encode: for the byte sequence `[1, 0, 1]` the encoder emits `[1, 1, 0]`,
and the decoder maps that back to `[1, 0, 0]`, not `[1, 0, 1]`.  (`doMTF`
pushes the just-written rank `last[i]`, not the consumed byte, back onto the
recency list, so the two recency lists diverge.) -/
theorem mtf_roundTrip_fails :
    undoMTF (doMTF [1, 0, 1]) = [1, 0, 0] ∧ undoMTF (doMTF [1, 0, 1]) ≠ [1, 0, 1] := by
  decide

/-- C6: the claim fails on the code.  Encoding `[1, 0, 1, 1]` emits
`[1, 1, 0, 1]`: the input ends with a run of two consecutive 1s with no
intervening distinct byte, yet the repetition (position 3) is encoded as
rank 1, not rank 0, because the recency list was corrupted earlier. -/
theorem mtf_run_not_clustered :
    doMTF [1, 0, 1, 1] = [1, 1, 0, 1] ∧ (doMTF [1, 0, 1, 1]).getD 3 0 ≠ 0 := by
  decide

/-- C10: the claim fails on the code.  After encoding the two bytes `[1, 0]`
the recency list is no longer a permutation of `0..255`: the value 1 occurs
twice, the value 0 has disappeared, and a linear search for a following
byte 0 fails (`indexOf` returns 256, the list length, i.e. `std::find`
returns `end`, after which the C++ `erase(end)` is undefined behaviour). -/
theorem mtf_list_not_permutation :
    (doMTFGo initList [1, 0]).2.count 1 = 2 ∧
    (doMTFGo initList [1, 0]).2.count 0 = 0 ∧
    List.indexOf 0 (doMTFGo initList [1, 0]).2 = 256 := by
  decide

/-- C1: the claim fails on the code for the MTF-enabled half.  For the block
`[0, 1, 1]` (length 3, within `1..BLOCK_SIZE`) the transform-then-inverse
round trip with the MTF stage enabled returns `[1, 1, 1]`, not the original
block, because `doMTF`/`undoMTF` are not mutually inverse. -/
theorem roundTrip_with_mtf_fails :
    roundTripBlock true [0, 1, 1] = [1, 1, 1] ∧
    roundTripBlock true [0, 1, 1] ≠ [0, 1, 1] := by
  decide

/-- C5: for the single-byte block `[0x00]` the forward transform produces
`primaryIndex = 0` and `lastColumn = [0x00]`, and the inverse transform
recovers `[0x00]`. -/
theorem singleByte_block :
    transformBlock [0] = (0, [0]) ∧ reverseTransformBlock 0 [0] = [0] := by
  decide

end BWT

namespace BWT

/-! ## Stream-level lemmas -/

/-- The `transform` loop writes exactly the records of the full chunks,
back-to-back. -/
theorem transformLoop_eq_records (m : Bool) (data : List Nat) :
    transformLoop m data = ((fullChunks data).map (record m)).flatten := by
  by_cases h : BLOCK_SIZE ≤ data.length
  · rw [transformLoop, fullChunks, dif_pos h, dif_pos h, List.map_cons, List.flatten_cons,
      transformLoop_eq_records m (data.drop BLOCK_SIZE)]
  · rw [transformLoop, fullChunks, dif_neg h, dif_neg h]
    simp
termination_by data.length
decreasing_by simp only [List.length_drop]; simp only [BLOCK_SIZE] at *; omega

/-- Appending fewer than `BLOCK_SIZE` bytes after a whole number of blocks
changes nothing: the trailing read comes up short, fails, and ends the loop. -/
theorem transformLoop_append_small (m : Bool) (data extra : List Nat)
    (hdvd : BLOCK_SIZE ∣ data.length) (hlt : extra.length < BLOCK_SIZE) :
    transformLoop m (data ++ extra) = transformLoop m data := by
  by_cases h : BLOCK_SIZE ≤ data.length
  · have h' : BLOCK_SIZE ≤ (data ++ extra).length := by
      simp only [List.length_append]; omega
    have htake : (data ++ extra).take BLOCK_SIZE = data.take BLOCK_SIZE := by
      rw [List.take_append_eq_append_take, Nat.sub_eq_zero_of_le h]
      simp
    have hdrop : (data ++ extra).drop BLOCK_SIZE = data.drop BLOCK_SIZE ++ extra := by
      rw [List.drop_append_eq_append_drop, Nat.sub_eq_zero_of_le h]
      simp
    have hdvd' : BLOCK_SIZE ∣ (data.drop BLOCK_SIZE).length := by
      rcases hdvd with ⟨k, hk⟩
      exact ⟨k - 1, by simp only [List.length_drop, hk]; simp only [BLOCK_SIZE] at *; omega⟩
    conv_lhs => rw [transformLoop]
    conv_rhs => rw [transformLoop]
    rw [dif_pos h', dif_pos h, htake, hdrop,
      transformLoop_append_small m (data.drop BLOCK_SIZE) extra hdvd' hlt]
  · have hz : data.length = 0 := by
      rcases hdvd with ⟨k, hk⟩
      rcases k with _ | k
      · simpa using hk
      · exfalso; simp only [BLOCK_SIZE] at *; omega
    have hd : data = [] := List.length_eq_zero.mp hz
    subst hd
    have h2 : ¬ BLOCK_SIZE ≤ ([] ++ extra : List Nat).length := by
      simp only [List.nil_append]; omega
    rw [transformLoop, dif_neg h2, transformLoop,
      dif_neg (by simp [BLOCK_SIZE] : ¬ BLOCK_SIZE ≤ ([] : List Nat).length)]
termination_by data.length
decreasing_by simp only [List.length_drop]; simp only [BLOCK_SIZE] at *; omega

/-- A 4-byte `unsigned int` round-trips through the on-stream byte encoding. -/
theorem decode4_encode4 (x : Nat) (hx : x < 4294967296) : decode4 (encode4 x) = x := by
  simp [decode4, encode4, List.getD]
  omega

/-! ## Claim theorems: stream behaviour -/

/-- C7: `transform` and `reverseTransform` return the failure status `-1`
exactly when the input or output stream is not open at call entry; the check
happens up front, on failure the output stream is untouched (no partial
write), and the only other result is `0` — there is no other runtime failure
mode (the `doMTF`/`undoMTF` status checks are dead: both always return 0). -/
theorem stream_failure_iff (fin : InFile) (fout : OutFile) (m : Bool) :
    ((transform fin fout m).1 = -1 ↔ ¬(fin.isOpen = true ∧ fout.isOpen = true)) ∧
    ((reverseTransform fin fout m).1 = -1 ↔ ¬(fin.isOpen = true ∧ fout.isOpen = true)) ∧
    (¬(fin.isOpen = true ∧ fout.isOpen = true) →
      (transform fin fout m).2 = fout ∧ (reverseTransform fin fout m).2 = fout) ∧
    ((transform fin fout m).1 = 0 ∨ (transform fin fout m).1 = -1) ∧
    ((reverseTransform fin fout m).1 = 0 ∨ (reverseTransform fin fout m).1 = -1) := by
  cases hf : fin.isOpen <;> cases hg : fout.isOpen <;>
    simp [transform, reverseTransform, hf, hg]

/-- Witness for `stream_failure_iff`: a closed input stream makes `transform`
return `-1` and leaves the output stream untouched. -/
theorem stream_failure_iff_instance :
    (transform ⟨false, [1]⟩ ⟨true, [2]⟩ true).1 = -1 ∧
    (transform ⟨false, [1]⟩ ⟨true, [2]⟩ true).2 = ⟨true, [2]⟩ :=
  ⟨((stream_failure_iff ⟨false, [1]⟩ ⟨true, [2]⟩ true).1).mpr (by simp),
   ((stream_failure_iff ⟨false, [1]⟩ ⟨true, [2]⟩ true).2.2.1 (by simp)).1⟩

/-- C8: each transformed block is written as `primaryIndex` — the 4 bytes of
an `unsigned int` in host order — immediately followed by the N-byte last
column, records back-to-back with no overall header, length prefix, or magic
number; the reader determines N from the bytes actually read for that block
(a full `BLOCK_SIZE` when more data follows, the true remaining count for a
short final record) and detects end-of-stream by a failed 4-byte read of the
next `primaryIndex`. -/
theorem record_stream_format (m : Bool) (fin : InFile) (fout : OutFile)
    (hin : fin.isOpen = true) (hout : fout.isOpen = true)
    (s0 : Nat) (hs0 : s0 < 4294967296)
    (col tl : List Nat) (hcol : col.length = BLOCK_SIZE)
    (col2 : List Nat) (hcol2 : col2.length < BLOCK_SIZE)
    (data2 : List Nat) (h2 : data2.length < 4) :
    (transform fin fout m).2.written =
      fout.written ++ ((fullChunks fin.data).map (record m)).flatten ∧
    reverseLoop m (encode4 s0 ++ (col ++ tl)) = reverseBlockM m s0 col ++ reverseLoop m tl ∧
    reverseLoop m (encode4 s0 ++ col2) = reverseBlockM m s0 col2 ∧
    reverseLoop m data2 = [] := by
  have hlen4 : (encode4 s0).length = 4 := rfl
  refine ⟨?_, ?_, ?_, ?_⟩
  · simp [transform, hin, hout, transformLoop_eq_records]
  · have h4 : (4 : Nat) ≤ (encode4 s0 ++ (col ++ tl)).length := by
      simp [hlen4]
    have htake : (encode4 s0 ++ (col ++ tl)).take 4 = encode4 s0 := by
      rw [List.take_append_eq_append_take, hlen4]; simp [← hlen4]
    have hdrop : (encode4 s0 ++ (col ++ tl)).drop 4 = col ++ tl := by
      rw [List.drop_append_eq_append_drop, hlen4]; simp [← hlen4]
    rw [reverseLoop, dif_pos h4, htake, hdrop, decode4_encode4 s0 hs0]
    have htake2 : (col ++ tl).take BLOCK_SIZE = col := by
      rw [List.take_append_eq_append_take, hcol]; simp [← hcol]
    have hcond : BLOCK_SIZE ≤ (col ++ tl).length := by simp [hcol]
    have hdrop2 : (col ++ tl).drop BLOCK_SIZE = tl := by
      rw [List.drop_append_eq_append_drop, hcol]; simp [← hcol]
    rw [htake2, if_pos hcond, hdrop2]
  · have h4 : (4 : Nat) ≤ (encode4 s0 ++ col2).length := by
      simp [hlen4]
    have htake : (encode4 s0 ++ col2).take 4 = encode4 s0 := by
      rw [List.take_append_eq_append_take, hlen4]; simp [← hlen4]
    have hdrop : (encode4 s0 ++ col2).drop 4 = col2 := by
      rw [List.drop_append_eq_append_drop, hlen4]; simp [← hlen4]
    rw [reverseLoop, dif_pos h4, htake, hdrop, decode4_encode4 s0 hs0]
    have hcond : ¬ BLOCK_SIZE ≤ col2.length := by omega
    rw [List.take_of_length_le (le_of_lt hcol2), if_neg hcond, List.append_nil]
  · rw [reverseLoop, dif_neg (by omega : ¬ (4 : Nat) ≤ data2.length)]

/-- Witness for `record_stream_format` at concrete streams and records. -/
theorem record_stream_format_instance :
    (transform ⟨true, List.replicate BLOCK_SIZE 3⟩ ⟨true, []⟩ false).2.written =
      [] ++ ((fullChunks (List.replicate BLOCK_SIZE 3)).map (record false)).flatten :=
  (record_stream_format false ⟨true, List.replicate BLOCK_SIZE 3⟩ ⟨true, []⟩ rfl rfl
    1 (by decide) (List.replicate BLOCK_SIZE 0) [] (by simp) [7] (by decide) [] (by decide)).1

/-- C9: when `transform` runs on open streams, a block is processed only if a
full `BLOCK_SIZE`-byte read succeeds: an input consisting of whole blocks
followed by a trailing remainder of fewer than `BLOCK_SIZE` bytes produces
exactly the output of the whole blocks — the remainder yields no record at
all — and the call still returns `0`. -/
theorem transform_ignores_partial_tail (m : Bool) (w data extra : List Nat)
    (hdvd : BLOCK_SIZE ∣ data.length) (hlt : extra.length < BLOCK_SIZE) :
    transform ⟨true, data ++ extra⟩ ⟨true, w⟩ m = (0, ⟨true, w ++ transformLoop m data⟩) := by
  simp [transform, transformLoop_append_small m data extra hdvd hlt]

/-- Witness for `transform_ignores_partial_tail`: a 3-byte input yields no
record and status 0. -/
theorem transform_ignores_partial_tail_instance :
    transform ⟨true, [] ++ [1, 2, 3]⟩ ⟨true, []⟩ true = (0, ⟨true, [] ++ transformLoop true []⟩) :=
  transform_ignores_partial_tail true [] [] [1, 2, 3] (dvd_zero _) (by decide)

end BWT

namespace BWT

/-! ## The inverse transform: LF-mapping characterisation -/

/-- The predecessor-rank list built by `pred[i] = count[block[i]]++`:
entry `i` is the running counter value, i.e. the occurrences of `col[i]`
seen strictly before `i`, plus whatever the counter started at. -/
theorem predCounts_fst (col : List Nat) : ∀ cnt : Nat → Nat,
    (predCounts col cnt).1 =
      (List.range col.length).map
        (fun i => cnt (col.getD i 0) + (col.take i).count (col.getD i 0)) := by
  induction col with
  | nil => intro cnt; simp [predCounts]
  | cons b rest ih =>
    intro cnt
    have htail : (predCounts rest (Function.update cnt b (cnt b + 1))).1 =
        (List.range rest.length).map
          (fun i => cnt ((b :: rest).getD (i + 1) 0) +
            ((b :: rest).take (i + 1)).count ((b :: rest).getD (i + 1) 0)) := by
      rw [ih]
      apply List.map_congr_left
      intro i _
      simp only [List.getD_cons_succ, List.take_succ_cons, List.count_cons,
        Function.update_apply, beq_iff_eq]
      by_cases hx : rest.getD i 0 = b
      · simp only [hx, if_pos rfl]
        simp
        omega
      · simp only [if_neg hx, if_neg (show ¬ b = rest.getD i 0 from fun h => hx (Eq.symm h))]
        omega
    simp only [predCounts, List.length_cons, List.range_succ_eq_map, List.map_cons, List.map_map]
    refine List.cons_eq_cons.mpr ⟨by simp, ?_⟩
    rw [htail]
    apply List.map_congr_left
    intro i _
    rfl

/-- After the `pred` loop the counter array holds the byte histogram. -/
theorem predCounts_snd (col : List Nat) : ∀ (cnt : Nat → Nat) (b : Nat),
    (predCounts col cnt).2 b = cnt b + col.count b := by
  induction col with
  | nil => intro cnt b; simp [predCounts]
  | cons c rest ih =>
    intro cnt b
    simp only [predCounts, ih, Function.update_apply, List.count_cons]
    by_cases hb : b = c
    · subst hb
      simp
      omega
    · simp [hb, show ¬c = b from fun h => hb (Eq.symm h)]

/-- Counting values below `b + 1` splits off the count of `b` itself. -/
theorem countP_lt_succ (col : List Nat) (b : Nat) :
    col.countP (fun x => decide (x < b + 1)) =
      col.countP (fun x => decide (x < b)) + col.count b := by
  induction col with
  | nil => simp
  | cons c rest ih =>
    simp only [List.countP_cons, List.count_cons, ih, decide_eq_true_eq, beq_iff_eq]
    rcases Nat.lt_trichotomy c b with h | h | h
    · rw [if_pos (show c < b + 1 by omega), if_pos h, if_neg (show ¬ c = b by omega)]
      omega
    · subst h
      rw [if_pos (show c < c + 1 by omega), if_neg (show ¬ c < c by omega), if_pos rfl]
      omega
    · rw [if_neg (show ¬ c < b + 1 by omega), if_neg (show ¬ c < b by omega),
        if_neg (show ¬ c = b by omega)]
      omega

/-- The exclusive prefix sums of the histogram count the bytes below `b`. -/
theorem offTable_count (col : List Nat) : ∀ b : Nat,
    offTable (fun c => col.count c) b = histBelow col b := by
  intro b
  induction b with
  | zero => simp [offTable, histBelow]
  | succ b ih => simp only [offTable, ih, histBelow, countP_lt_succ]

/-- Strictly before position `i` there are fewer occurrences of `col[i]`
than in all of `col`. -/
theorem count_take_lt (col : List Nat) (i : Nat) (hi : i < col.length) :
    (col.take i).count (col.getD i 0) < col.count (col.getD i 0) := by
  have h1 : col.count (col.getD i 0) =
      (col.take i).count (col.getD i 0) + (col.drop i).count (col.getD i 0) := by
    rw [← List.count_append, List.take_append_drop]
  have hdrop : col.drop i = col.getD i 0 :: col.drop (i + 1) := by
    rw [List.getD_eq_getElem col 0 hi, List.drop_eq_getElem_cons hi]
  rw [h1, hdrop, List.count_cons]
  have hb : (col.getD i 0 == col.getD i 0) = true := beq_self_eq_true _
  rw [hb, if_pos rfl]
  omega

/-- The LF step stays inside the column. -/
theorem lfStep_lt (col : List Nat) (i : Nat) (hi : i < col.length) :
    lfStep col i < col.length := by
  have h1 := count_take_lt col i hi
  have h2 : histBelow col (col.getD i 0) + col.count (col.getD i 0) ≤ col.length := by
    have := countP_lt_succ col (col.getD i 0)
    have hle : col.countP (fun x => decide (x < col.getD i 0 + 1)) ≤ col.length :=
      List.countP_le_length _
    simp only [histBelow]
    omega
  simp only [lfStep, occBefore]
  omega

/-- Unfolding the iterated LF walk from the far end. -/
theorem lfPos_shift (col : List Nat) (i : Nat) : ∀ k : Nat,
    lfPos col (lfStep col i) k = lfPos col i (k + 1) := by
  intro k
  induction k with
  | zero => rfl
  | succ k ih => simp only [lfPos, ih]

/-- The backward walk, run with the real `pred` list and offset table,
produces exactly the bytes of the iterated LF positions, earliest step
rightmost. -/
theorem reverseWalk_spec (col : List Nat) (pred : List Nat) (off : Nat → Nat)
    (hpred : pred = (List.range col.length).map (fun i => (col.take i).count (col.getD i 0)))
    (hoff : ∀ b, off b = histBelow col b) :
    ∀ (k i : Nat) (acc : List Nat), i < col.length →
      reverseWalk col pred off k i acc =
        ((List.range k).map (fun j => col.getD (lfPos col i (k - 1 - j)) 0)) ++ acc := by
  intro k
  induction k with
  | zero => intro i acc _; simp [reverseWalk]
  | succ k ih =>
    intro i acc hi
    have hgetD : pred.getD i 0 = (col.take i).count (col.getD i 0) := by
      subst hpred
      rw [List.getD_eq_getElem _ 0 (by simpa using hi), List.getElem_map, List.getElem_range]
    have hstep : pred.getD i 0 + off (col.getD i 0) = lfStep col i := by
      rw [hgetD, hoff]; rfl
    rw [reverseWalk, hstep, ih (lfStep col i) _ (lfStep_lt col i hi)]
    rw [List.range_succ, List.map_append, List.map_cons, List.map_nil, List.append_assoc]
    congr 1
    · apply List.map_congr_left
      intro j hj
      rw [List.mem_range] at hj
      rw [lfPos_shift]
      congr 2
      omega
    · simp [lfPos]

/-- C4: the inverse transform computes `predecessorRank[i]` as the number of
occurrences of `lastColumn[i]` among the entries strictly before `i`, turns
the byte histogram of `lastColumn` into an exclusive prefix-sum offset
table, and then walks backward from `primaryIndex` for exactly `n` steps,
reading `lastColumn[position]` into the output from the end toward the start
and updating `position = predecessorRank[position] + offsetTable[lastColumn[position]]`. -/
theorem reverse_block_lf_walk (s0 : Nat) (col : List Nat) (hs0 : s0 < col.length) :
    (predCounts col (fun _ => 0)).1 = (List.range col.length).map (occBefore col) ∧
    (∀ b, (predCounts col (fun _ => 0)).2 b = col.count b) ∧
    (∀ b, offTable (predCounts col (fun _ => 0)).2 b = histBelow col b) ∧
    reverseTransformBlock s0 col =
      (List.range col.length).map (fun j => col.getD (lfPos col s0 (col.length - 1 - j)) 0) := by
  have hfst : (predCounts col (fun _ => 0)).1 =
      (List.range col.length).map (fun i => (col.take i).count (col.getD i 0)) := by
    rw [predCounts_fst]
    simp
  have hsnd : ∀ b, (predCounts col (fun _ => 0)).2 b = col.count b := by
    intro b; rw [predCounts_snd]; simp
  have hoff : ∀ b, offTable (predCounts col (fun _ => 0)).2 b = histBelow col b := by
    intro b
    have hfun : (predCounts col (fun _ => 0)).2 = fun c => col.count c := funext hsnd
    rw [hfun, offTable_count]
  refine ⟨by rw [hfst]; rfl, hsnd, hoff, ?_⟩
  rw [reverseTransformBlock, reverseWalk_spec col _ _ hfst hoff col.length s0 [] hs0,
    List.append_nil]

/-- Witness for `reverse_block_lf_walk` on the column `[3, 3]` with
`primaryIndex = 1`. -/
theorem reverse_block_lf_walk_instance :
    (predCounts [3, 3] (fun _ => 0)).1 = (List.range 2).map (occBefore [3, 3]) ∧
    (∀ b, (predCounts [3, 3] (fun _ => 0)).2 b = List.count b [3, 3]) ∧
    (∀ b, offTable (predCounts [3, 3] (fun _ => 0)).2 b = histBelow [3, 3] b) ∧
    reverseTransformBlock 1 [3, 3] =
      (List.range 2).map (fun j => List.getD [3, 3] (lfPos [3, 3] 1 (2 - 1 - j)) 0) :=
  reverse_block_lf_walk 1 [3, 3] (by decide)

end BWT

namespace BWT

/-! ## Counting-sort infrastructure for the rotation order -/

theorem getD_set_self {l : List Nat} {i : Nat} {a d : Nat} (h : i < l.length) :
    (l.set i a).getD i d = a := by
  simp [List.getD_eq_getElem?_getD, List.getElem?_set_self h]

theorem getD_set_ne {l : List Nat} {i j : Nat} {a d : Nat} (h : i ≠ j) :
    (l.set i a).getD j d = l.getD j d := by
  simp [List.getD_eq_getElem?_getD, List.getElem?_set_ne h]

/-- Counting keys below `K + 1` splits off the bucket of `K`. -/
theorem countP_key_lt_succ (key : Nat → Nat) (items : List Nat) (K : Nat) :
    items.countP (fun x => decide (key x < K + 1)) =
      items.countP (fun x => decide (key x < K)) + items.countP (fun x => decide (key x = K)) := by
  induction items with
  | nil => simp
  | cons c rest ih =>
    simp only [List.countP_cons, ih, decide_eq_true_eq]
    rcases Nat.lt_trichotomy (key c) K with h | h | h
    · rw [if_pos (show key c < K + 1 by omega), if_pos h, if_neg (show ¬ key c = K by omega)]
      omega
    · rw [if_pos (show key c < K + 1 by omega), if_neg (show ¬ key c < K by omega), if_pos h]
      omega
    · rw [if_neg (show ¬ key c < K + 1 by omega), if_neg (show ¬ key c < K by omega),
        if_neg (show ¬ key c = K by omega)]
      omega

theorem baseOff_succ (key : Nat → Nat) (items : List Nat) (c : Nat) :
    baseOff key items (c + 1) = baseOff key items c + cntKey key items c :=
  countP_key_lt_succ key items c

theorem baseOff_mono (key : Nat → Nat) (items : List Nat) {c c' : Nat} (h : c ≤ c') :
    baseOff key items c ≤ baseOff key items c' := by
  apply List.countP_mono_left
  intro x _ hx
  simp only [decide_eq_true_eq] at *
  omega

theorem baseOff_le_length (key : Nat → Nat) (items : List Nat) (c : Nat) :
    baseOff key items c ≤ items.length :=
  List.countP_le_length _

/-- Bucket segments are disjoint: a slot in the bucket of `c` differs from a
slot in the bucket of `c' ≠ c`. -/
theorem slot_ne (key : Nat → Nat) (items : List Nat) {c c' r r' : Nat} (hcc : c ≠ c')
    (hr : r < cntKey key items c) (hr' : r' < cntKey key items c') :
    baseOff key items c + r ≠ baseOff key items c' + r' := by
  rcases Nat.lt_or_ge c c' with h | h
  · have h1 : baseOff key items (c + 1) ≤ baseOff key items c' := baseOff_mono key items h
    have h2 := baseOff_succ key items c
    omega
  · have hlt : c' < c := by omega
    have h1 : baseOff key items (c' + 1) ≤ baseOff key items c := baseOff_mono key items hlt
    have h2 := baseOff_succ key items c'
    omega

/-- Every position below the total count decomposes uniquely as a bucket
start plus an in-bucket rank. -/
theorem index_decomp (key : Nat → Nat) (items : List Nat) :
    ∀ K j, j < items.countP (fun x => decide (key x < K)) →
      ∃ c, c < K ∧ ∃ r, r < cntKey key items c ∧ j = baseOff key items c + r := by
  intro K
  induction K with
  | zero => simp
  | succ K ih =>
    intro j hj
    by_cases h : j < items.countP (fun x => decide (key x < K))
    · obtain ⟨c, hc, r, hr, hjr⟩ := ih j h
      exact ⟨c, by omega, r, hr, hjr⟩
    · rw [countP_key_lt_succ] at hj
      refine ⟨K, by omega, j - baseOff key items K, ?_, ?_⟩
      · simp only [baseOff, cntKey] at *
        omega
      · simp only [baseOff, cntKey] at *
        omega

theorem bucketsUpto_succ (key : Nat → Nat) (items : List Nat) (K : Nat) :
    bucketsUpto key items (K + 1) =
      bucketsUpto key items K ++ items.filter (fun x => decide (key x = K)) := by
  unfold bucketsUpto
  rw [List.range_succ, List.flatMap_append]
  simp

theorem length_bucketsUpto (key : Nat → Nat) (items : List Nat) :
    ∀ K, (bucketsUpto key items K).length = items.countP (fun x => decide (key x < K)) := by
  intro K
  induction K with
  | zero => simp [bucketsUpto]
  | succ K ih =>
    rw [bucketsUpto_succ, List.length_append, ih, countP_key_lt_succ,
      ← List.countP_eq_length_filter]

/-- Reading a bucket slot of the concatenated buckets yields the bucket
entry. -/
theorem getD_bucketsUpto (key : Nat → Nat) (items : List Nat) :
    ∀ K c r, c < K → r < cntKey key items c →
      (bucketsUpto key items K).getD (baseOff key items c + r) 0 =
        (items.filter (fun x => decide (key x = c))).getD r 0 := by
  intro K
  induction K with
  | zero => omega
  | succ K ih =>
    intro c r hc hr
    rw [bucketsUpto_succ]
    by_cases h : c < K
    · rw [List.getD_append]
      · exact ih c r h hr
      · rw [length_bucketsUpto]
        have h1 : baseOff key items (c + 1) ≤ baseOff key items K := baseOff_mono key items h
        have h2 := baseOff_succ key items c
        simp only [baseOff] at *
        omega
    · have hcK : c = K := by omega
      subst hcK
      rw [List.getD_append_right]
      · rw [length_bucketsUpto]
        congr 1
        simp only [baseOff]
        omega
      · rw [length_bucketsUpto]
        simp only [baseOff]
        omega

theorem bucketsUpto_perm (key : Nat → Nat) (items : List Nat) :
    ∀ K, (bucketsUpto key items K).Perm (items.filter (fun x => decide (key x < K))) := by
  intro K
  induction K with
  | zero => simp [bucketsUpto]
  | succ K ih =>
    rw [bucketsUpto_succ]
    have hsplit : (items.filter (fun x => decide (key x < K + 1))).filter
          (fun x => decide (key x < K)) = items.filter (fun x => decide (key x < K)) := by
      rw [List.filter_filter]
      apply List.filter_congr
      intro x _
      by_cases h : key x < K
      · simp [h, show key x < K + 1 by omega]
      · simp [h]
    have hsplit2 : (items.filter (fun x => decide (key x < K + 1))).filter
          (fun x => !(decide (key x < K))) = items.filter (fun x => decide (key x = K)) := by
      rw [List.filter_filter]
      apply List.filter_congr
      intro x _
      by_cases h : key x = K
      · simp [h]
      · by_cases h2 : key x < K
        · simp [h, h2, show key x < K + 1 by omega]
        · simp [h, h2, show ¬ key x < K + 1 by omega]
    have hp := List.filter_append_perm (fun x => decide (key x < K))
      (items.filter (fun x => decide (key x < K + 1)))
    rw [hsplit, hsplit2] at hp
    exact (ih.append (List.Perm.refl _)).trans hp

/-- With all keys below 256, the 256 buckets are a permutation of the
items. -/
theorem buckets_perm (key : Nat → Nat) (items : List Nat)
    (hkey : ∀ x ∈ items, key x < 256) : (buckets key items).Perm items := by
  have h := bucketsUpto_perm key items 256
  rw [List.filter_eq_self.mpr (fun a ha => by simpa using hkey a ha)] at h
  exact h

theorem length_buckets (key : Nat → Nat) (items : List Nat)
    (hkey : ∀ x ∈ items, key x < 256) : (buckets key items).length = items.length :=
  (buckets_perm key items hkey).length_eq

/-- Concatenating the buckets is pairwise-sorted by key, with the original
relation surviving inside each bucket. -/
theorem buckets_pairwise (key : Nat → Nat) {R : Nat → Nat → Prop} (items : List Nat)
    (h : items.Pairwise R) :
    (buckets key items).Pairwise
      (fun a b => key a < key b ∨ (key a = key b ∧ R a b)) := by
  unfold buckets bucketsUpto
  rw [List.flatMap_def, List.pairwise_flatten]
  constructor
  · intro l hl
    rw [List.mem_map] at hl
    obtain ⟨c, _, rfl⟩ := hl
    refine (h.filter _).imp_of_mem ?_
    intro a b ha hb hab
    rw [List.mem_filter, decide_eq_true_eq] at ha hb
    exact Or.inr ⟨ha.2.trans hb.2.symm, hab⟩
  · rw [List.pairwise_map]
    refine (List.pairwise_lt_range 256).imp_of_mem ?_
    intro c1 c2 _ _ hlt x hx y hy
    rw [List.mem_filter, decide_eq_true_eq] at hx hy
    exact Or.inl (by omega)

end BWT

namespace BWT

/-! ## The scatter loop realises the stable counting sort -/

theorem scatter_cons (key : Nat → Nat) (x : Nat) (xs : List Nat) (off : Nat → Nat)
    (v : List Nat) :
    scatter key (x :: xs) (off, v) =
      scatter key xs (Function.update off (key x) (off (key x) + 1), v.set (off (key x)) x) :=
  rfl

/-- Invariant-carrying induction for the scatter loop: having already placed
the items of `pre` (each bucket filled to its rank in `pre`, offsets pointing
at the next free slot of each bucket), scattering the remaining `xs` fills
`v` with the complete bucket concatenation. -/
theorem scatter_go (key : Nat → Nat) (full : List Nat) (hkey : ∀ x ∈ full, key x < 256) :
    ∀ (xs pre : List Nat), full = pre ++ xs →
    ∀ off : Nat → Nat, (∀ c, off c = baseOff key full c + cntKey key pre c) →
    ∀ v : List Nat, v.length = full.length →
    (∀ c r, r < cntKey key pre c →
      v.getD (baseOff key full c + r) 0 =
        (full.filter (fun x => decide (key x = c))).getD r 0) →
    (scatter key xs (off, v)).2 = buckets key full := by
  intro xs
  induction xs with
  | nil =>
    intro pre hfull off _hoff v hv hinv
    rw [List.append_nil] at hfull
    subst hfull
    show v = buckets key full
    have hlenfull : full.countP (fun x => decide (key x < 256)) = full.length :=
      List.countP_eq_length.mpr
        (fun a ha => by simp only [decide_eq_true_eq]; exact hkey a ha)
    have hlenb : (buckets key full).length = full.length := length_buckets key full hkey
    apply List.ext_getElem (by omega)
    intro j hj1 hj2
    have hjlen : j < full.length := by omega
    obtain ⟨c, hc, r, hr, hjr⟩ := index_decomp key full 256 j (by omega)
    have h1 : v.getD j 0 = (full.filter (fun x => decide (key x = c))).getD r 0 := by
      rw [hjr]; exact hinv c r hr
    have h2 : (buckets key full).getD j 0 =
        (full.filter (fun x => decide (key x = c))).getD r 0 := by
      rw [hjr]; exact getD_bucketsUpto key full 256 c r hc hr
    rw [← List.getD_eq_getElem v 0 hj1, ← List.getD_eq_getElem (buckets key full) 0 hj2, h1, h2]
  | cons x xs ih =>
    intro pre hfull off hoff v hv hinv
    have hx : x ∈ full := by rw [hfull]; exact List.mem_append_right pre (List.mem_cons_self x xs)
    have hfull' : full = (pre ++ [x]) ++ xs := by rw [hfull, List.append_assoc]; rfl
    have hsub : (pre ++ [x]).Sublist full := by
      rw [hfull']; exact List.sublist_append_left _ _
    have hpresub : pre.Sublist full := by
      rw [hfull]; exact List.sublist_append_left _ _
    have hcnt_app : ∀ c, cntKey key (pre ++ [x]) c =
        cntKey key pre c + (if key x = c then 1 else 0) := by
      intro c
      simp only [cntKey, List.countP_append, List.countP_cons, List.countP_nil]
      by_cases h : key x = c
      · simp [h]
      · simp [h]
    have hcnt_lt : cntKey key pre (key x) < cntKey key full (key x) := by
      have h1 : cntKey key (pre ++ [x]) (key x) ≤ cntKey key full (key x) :=
        List.Sublist.countP_le _ hsub
      have h2 := hcnt_app (key x)
      simp at h2
      omega
    have hposlt : baseOff key full (key x) + cntKey key pre (key x) < full.length := by
      have h1 := baseOff_succ key full (key x)
      have h2 := baseOff_le_length key full (key x + 1)
      omega
    rw [scatter_cons]
    apply ih (pre ++ [x]) hfull'
    · intro c
      rw [Function.update_apply, hcnt_app c]
      by_cases h : c = key x
      · subst h
        rw [if_pos rfl, if_pos rfl, hoff]
        omega
      · rw [if_neg h, if_neg (fun hh => h hh.symm), hoff]
        omega
    · rw [List.length_set, hv]
    · intro c r hr
      rw [hcnt_app c] at hr
      by_cases hc : key x = c
      · subst hc
        rw [if_pos rfl] at hr
        rcases Nat.lt_or_ge r (cntKey key pre (key x)) with hrlt | hrge
        · rw [getD_set_ne (by rw [hoff]; omega)]
          exact hinv (key x) r hrlt
        · have hreq : r = cntKey key pre (key x) := by omega
          subst hreq
          rw [hoff, getD_set_self (by omega)]
          have hsplit : full.filter (fun y => decide (key y = key x)) =
              pre.filter (fun y => decide (key y = key x)) ++
                x :: xs.filter (fun y => decide (key y = key x)) := by
            rw [hfull, List.filter_append, List.filter_cons, if_pos (by simp)]
          have hlenf : (pre.filter (fun y => decide (key y = key x))).length =
              cntKey key pre (key x) := (List.countP_eq_length_filter _ _).symm
          rw [hsplit, List.getD_append_right _ _ _ _ (by simp [hlenf]), hlenf]
          simp
      · rw [if_neg hc, Nat.add_zero] at hr
        have hrfull : r < cntKey key full c :=
          lt_of_lt_of_le hr (List.Sublist.countP_le _ hpresub)
        rw [getD_set_ne (by rw [hoff]; exact slot_ne key full hc hcnt_lt hrfull)]
        exact hinv c r hr

/-- The scatter pass, started on the real offset table and a buffer of the
right size, produces exactly the stable counting sort by `key`. -/
theorem scatter_eq_buckets (key : Nat → Nat) (items : List Nat)
    (hkey : ∀ x ∈ items, key x < 256) (off : Nat → Nat)
    (hoff : ∀ c, off c = baseOff key items c) (v : List Nat)
    (hv : v.length = items.length) :
    (scatter key items (off, v)).2 = buckets key items := by
  apply scatter_go key items hkey items [] rfl
  · intro c
    rw [hoff]
    simp [cntKey]
  · exact hv
  · intro c r hr
    simp [cntKey] at hr

end BWT

namespace BWT

/-! ## The two bucket passes of the forward transform -/

theorem getD_mem {l : List Nat} {i : Nat} (h : i < l.length) : l.getD i 0 ∈ l := by
  rw [List.getD_eq_getElem l 0 h]
  exact List.getElem_mem h

theorem scatter_congr (key key' : Nat → Nat) :
    ∀ (xs : List Nat) (st : (Nat → Nat) × List Nat), (∀ x ∈ xs, key x = key' x) →
      scatter key xs st = scatter key' xs st := by
  intro xs
  induction xs with
  | nil => intro st _; rfl
  | cons x xs ih =>
    intro st h
    rcases st with ⟨off, v⟩
    rw [scatter_cons, scatter_cons, h x (List.mem_cons_self x xs),
      ih _ (fun y hy => h y (List.mem_cons_of_mem x hy))]

theorem scatter_append (key : Nat → Nat) :
    ∀ (xs ys : List Nat) (st : (Nat → Nat) × List Nat),
      scatter key (xs ++ ys) st = scatter key ys (scatter key xs st) := by
  intro xs
  induction xs with
  | nil => intro ys st; rfl
  | cons x xs ih =>
    intro ys st
    rcases st with ⟨off, v⟩
    rw [List.cons_append, scatter_cons, scatter_cons, ih]

/-- The second bytes of all rotations, listed by rotation start, are the
block rotated left by one byte. -/
theorem map_secondKey_range (block : List Nat) (hne : block ≠ []) :
    (List.range block.length).map (fun i => block.getD ((i + 1) % block.length) 0) =
      block.drop 1 ++ block.take 1 := by
  have hn : 0 < block.length := List.length_pos.mpr hne
  apply List.ext_getElem
  · simp
    omega
  · intro i h1 h2
    rw [List.getElem_map, List.getElem_range]
    rw [List.length_map, List.length_range] at h1
    by_cases hlt : i < block.length - 1
    · have hi1 : i + 1 < block.length := by omega
      rw [Nat.mod_eq_of_lt hi1, List.getD_eq_getElem block 0 hi1,
        List.getElem_append_left (by simp [List.length_drop]; omega), List.getElem_drop]
      congr 1
      omega
    · have hieq : i = block.length - 1 := by omega
      subst hieq
      have hmod : (block.length - 1 + 1) % block.length = 0 := by
        rw [show block.length - 1 + 1 = block.length by omega, Nat.mod_self]
      rw [hmod, List.getD_eq_getElem block 0 hn,
        List.getElem_append_right (by simp [List.length_drop]), List.getElem_take]
      congr 1
      simp [List.length_drop]

/-- Reading every position of a list in order is the list itself. -/
theorem map_getD_range (l : List Nat) :
    (List.range l.length).map (fun i => l.getD i 0) = l := by
  apply List.ext_getElem
  · simp
  · intro i h1 h2
    rw [List.getElem_map, List.getElem_range, List.getD_eq_getElem l 0 h2]

/-- The offset table over the block histogram is the bucket base table for
the second-byte keys of all rotations. -/
theorem offTable_baseOff_second (block : List Nat) (hne : block ≠ []) (c : Nat) :
    offTable (counters block) c =
      baseOff (fun i => block.getD ((i + 1) % block.length) 0) (List.range block.length) c := by
  have h1 : offTable (counters block) c = block.countP (fun x => decide (x < c)) :=
    offTable_count block c
  rw [h1]
  unfold baseOff
  have h2 : (List.range block.length).countP
        (fun i => decide (block.getD ((i + 1) % block.length) 0 < c)) =
      ((List.range block.length).map
        (fun i => block.getD ((i + 1) % block.length) 0)).countP (fun x => decide (x < c)) := by
    rw [List.countP_map]
    rfl
  rw [h2, map_secondKey_range block hne, List.countP_append]
  conv_lhs => rw [← List.take_append_drop 1 block]
  rw [List.countP_append]
  omega

/-- The offset table over the block histogram is also the bucket base table
for the first-byte keys of the first-pass output. -/
theorem offTable_baseOff_first (block v : List Nat)
    (hv : v.Perm (List.range block.length)) (c : Nat) :
    offTable (counters block) c = baseOff (fun j => block.getD j 0) v c := by
  have h1 : offTable (counters block) c = block.countP (fun x => decide (x < c)) :=
    offTable_count block c
  rw [h1]
  unfold baseOff
  have h2 : v.countP (fun j => decide (block.getD j 0 < c)) =
      (List.range block.length).countP (fun j => decide (block.getD j 0 < c)) :=
    hv.countP_eq _
  have h3 : (List.range block.length).countP (fun j => decide (block.getD j 0 < c)) =
      ((List.range block.length).map (fun j => block.getD j 0)).countP
        (fun x => decide (x < c)) := by
    rw [List.countP_map]
    rfl
  rw [h2, h3, map_getD_range]

/-- The first pass (including the final non-incrementing store) is the
stable counting sort of all rotation starts by their second byte. -/
theorem buildV_eq_buckets (block : List Nat) (hne : block ≠ [])
    (h256 : ∀ b ∈ block, b < 256) :
    buildV block =
      buckets (fun i => block.getD ((i + 1) % block.length) 0) (List.range block.length) := by
  have hn : 0 < block.length := List.length_pos.mpr hne
  have hkey : ∀ x ∈ List.range block.length, block.getD ((x + 1) % block.length) 0 < 256 :=
    fun x _ => h256 _ (getD_mem (Nat.mod_lt _ hn))
  have hcongr : scatter (fun i => block.getD (i + 1) 0) (List.range (block.length - 1))
        (offTable (counters block), List.replicate block.length 0) =
      scatter (fun i => block.getD ((i + 1) % block.length) 0) (List.range (block.length - 1))
        (offTable (counters block), List.replicate block.length 0) := by
    apply scatter_congr
    intro x hx
    rw [List.mem_range] at hx
    show block.getD (x + 1) 0 = block.getD ((x + 1) % block.length) 0
    rw [Nat.mod_eq_of_lt (by omega)]
  have heq : buildV block =
      (scatter (fun i => block.getD ((i + 1) % block.length) 0) (List.range block.length)
        (offTable (counters block), List.replicate block.length 0)).2 := by
    show ((scatter (fun i => block.getD (i + 1) 0) (List.range (block.length - 1))
          (offTable (counters block), List.replicate block.length 0)).2.set
        ((scatter (fun i => block.getD (i + 1) 0) (List.range (block.length - 1))
          (offTable (counters block), List.replicate block.length 0)).1 (block.getD 0 0))
        (block.length - 1)) = _
    rw [hcongr]
    conv_rhs => rw [show List.range block.length =
        List.range (block.length - 1) ++ [block.length - 1] by
      conv_lhs => rw [show block.length = block.length - 1 + 1 by omega]
      exact List.range_succ _]
    rw [scatter_append]
    rcases scatter (fun i => block.getD ((i + 1) % block.length) 0)
        (List.range (block.length - 1))
        (offTable (counters block), List.replicate block.length 0) with ⟨off1, v1⟩
    show v1.set (off1 (block.getD 0 0)) (block.length - 1) =
      v1.set (off1 (block.getD ((block.length - 1 + 1) % block.length) 0)) (block.length - 1)
    rw [show block.length - 1 + 1 = block.length by omega, Nat.mod_self]
  rw [heq]
  exact scatter_eq_buckets _ _ hkey _ (offTable_baseOff_second block hne) _ (by simp)

/-- The second pass is the stable counting sort of the first-pass output by
the first byte of each rotation. -/
theorem ridx0_eq_buckets (block v : List Nat) (h256 : ∀ b ∈ block, b < 256)
    (hv : v.Perm (List.range block.length)) :
    buildRotationIdx0 block v = buckets (fun j => block.getD j 0) v := by
  have hkey : ∀ x ∈ v, block.getD x 0 < 256 := by
    intro x hx
    have hxr : x ∈ List.range block.length := hv.mem_iff.mp hx
    rw [List.mem_range] at hxr
    exact h256 _ (getD_mem hxr)
  exact scatter_eq_buckets _ _ hkey _ (offTable_baseOff_first block v hv) _
    (by simp [hv.length_eq])

/-- After the two bucket passes the rotation array is a permutation of the
rotation starts, ordered by two-byte prefix with ties by start offset. -/
theorem ridx0_perm_pairwise (block : List Nat) (hne : block ≠ [])
    (h256 : ∀ b ∈ block, b < 256) :
    (buildRotationIdx0 block (buildV block)).Perm (List.range block.length) ∧
    (buildRotationIdx0 block (buildV block)).Pairwise (ord12 block) := by
  have hn : 0 < block.length := List.length_pos.mpr hne
  have hvperm : (buildV block).Perm (List.range block.length) := by
    rw [buildV_eq_buckets block hne h256]
    exact buckets_perm _ _ (fun x _ => h256 _ (getD_mem (Nat.mod_lt _ hn)))
  have hvpair : (buildV block).Pairwise (fun a b =>
      block.getD ((a + 1) % block.length) 0 < block.getD ((b + 1) % block.length) 0 ∨
      (block.getD ((a + 1) % block.length) 0 = block.getD ((b + 1) % block.length) 0 ∧
        a < b)) := by
    rw [buildV_eq_buckets block hne h256]
    exact buckets_pairwise _ _ (List.pairwise_lt_range block.length)
  have hperm : (buildRotationIdx0 block (buildV block)).Perm (List.range block.length) := by
    rw [ridx0_eq_buckets block _ h256 hvperm]
    exact (buckets_perm _ _ (fun x hx => by
      have hxr : x ∈ List.range block.length := hvperm.mem_iff.mp hx
      rw [List.mem_range] at hxr
      exact h256 _ (getD_mem hxr))).trans hvperm
  refine ⟨hperm, ?_⟩
  rw [ridx0_eq_buckets block _ h256 hvperm]
  have hpair := buckets_pairwise (fun j => block.getD j 0) (buildV block) hvpair
  refine hpair.imp_of_mem ?_
  intro a b _ _ hab
  rcases hab with h | ⟨h1, h2⟩
  · exact Or.inl (Or.inl h)
  · rcases h2 with h2 | ⟨h2a, h2b⟩
    · exact Or.inl (Or.inr ⟨h1, h2⟩)
    · exact Or.inr ⟨Prod.ext_iff.mpr ⟨h1, h2a⟩, h2b⟩

end BWT

namespace BWT

/-! ## The comparator against lexicographic order on cyclic strings -/

theorem cmpFrom_succ (block : List Nat) (fuel o1 o2 : Nat) :
    cmpFrom block (fuel + 1) o1 o2 =
      if block.getD (o1 % block.length) 0 ≠ block.getD (o2 % block.length) 0 then
        (if block.getD (o1 % block.length) 0 > block.getD (o2 % block.length) 0 then 1 else -1)
      else cmpFrom block fuel (o1 + 1) (o2 + 1) := rfl

theorem seqFrom_succ (block : List Nat) (o fuel : Nat) :
    seqFrom block o (fuel + 1) =
      block.getD (o % block.length) 0 :: seqFrom block (o + 1) fuel := rfl

theorem cmpFrom_antisymm (block : List Nat) :
    ∀ fuel o1 o2, cmpFrom block fuel o1 o2 = -cmpFrom block fuel o2 o1 := by
  intro fuel
  induction fuel with
  | zero => intro o1 o2; rfl
  | succ fuel ih =>
    intro o1 o2
    rw [cmpFrom_succ, cmpFrom_succ]
    rcases Nat.lt_trichotomy (block.getD (o1 % block.length) 0)
      (block.getD (o2 % block.length) 0) with h | h | h
    · rw [if_pos (by omega), if_neg (by omega), if_pos (by omega), if_pos (by omega)]
    · rw [if_neg (by omega), if_neg (by omega)]
      exact ih (o1 + 1) (o2 + 1)
    · rw [if_pos (by omega), if_pos (by omega), if_pos (by omega), if_neg (by omega)]
      decide

theorem cmpFrom_cases (block : List Nat) :
    ∀ fuel o1 o2, cmpFrom block fuel o1 o2 = 0 ∨ cmpFrom block fuel o1 o2 = 1 ∨
      cmpFrom block fuel o1 o2 = -1 := by
  intro fuel
  induction fuel with
  | zero => intro o1 o2; exact Or.inl rfl
  | succ fuel ih =>
    intro o1 o2
    rw [cmpFrom_succ]
    by_cases h : block.getD (o1 % block.length) 0 ≠ block.getD (o2 % block.length) 0
    · rw [if_pos h]
      by_cases h2 : block.getD (o1 % block.length) 0 > block.getD (o2 % block.length) 0
      · rw [if_pos h2]; exact Or.inr (Or.inl rfl)
      · rw [if_neg h2]; exact Or.inr (Or.inr rfl)
    · rw [if_neg h]
      exact ih (o1 + 1) (o2 + 1)

theorem cmpFrom_eq_zero_iff (block : List Nat) :
    ∀ fuel o1 o2, cmpFrom block fuel o1 o2 = 0 ↔
      seqFrom block o1 fuel = seqFrom block o2 fuel := by
  intro fuel
  induction fuel with
  | zero => intro o1 o2; simp [cmpFrom, seqFrom]
  | succ fuel ih =>
    intro o1 o2
    rw [cmpFrom_succ, seqFrom_succ, seqFrom_succ]
    by_cases h : block.getD (o1 % block.length) 0 ≠ block.getD (o2 % block.length) 0
    · rw [if_pos h]
      constructor
      · intro hc
        exfalso
        by_cases h2 : block.getD (o1 % block.length) 0 > block.getD (o2 % block.length) 0
        · rw [if_pos h2] at hc
          omega
        · rw [if_neg h2] at hc
          omega
      · intro hc
        exact absurd (List.cons_eq_cons.mp hc).1 h
    · rw [if_neg h]
      push_neg at h
      rw [ih (o1 + 1) (o2 + 1)]
      constructor
      · intro hc; rw [h, hc]
      · intro hc; exact (List.cons_eq_cons.mp hc).2

theorem lex_cons_inv {a b : Nat} {l1 l2 : List Nat}
    (h : List.Lex (· < ·) (a :: l1) (b :: l2)) :
    a < b ∨ (a = b ∧ List.Lex (· < ·) l1 l2) := by
  cases h with
  | cons h => exact Or.inr ⟨rfl, h⟩
  | rel h => exact Or.inl h

theorem cmpFrom_neg_iff (block : List Nat) :
    ∀ fuel o1 o2, cmpFrom block fuel o1 o2 < 0 ↔
      List.Lex (· < ·) (seqFrom block o1 fuel) (seqFrom block o2 fuel) := by
  intro fuel
  induction fuel with
  | zero =>
    intro o1 o2
    simp only [cmpFrom, seqFrom]
    constructor
    · intro hc; omega
    · intro hc; cases hc
  | succ fuel ih =>
    intro o1 o2
    rw [cmpFrom_succ, seqFrom_succ, seqFrom_succ]
    by_cases h : block.getD (o1 % block.length) 0 ≠ block.getD (o2 % block.length) 0
    · rw [if_pos h]
      constructor
      · intro hc
        have hlt : block.getD (o1 % block.length) 0 < block.getD (o2 % block.length) 0 := by
          by_cases h2 : block.getD (o1 % block.length) 0 > block.getD (o2 % block.length) 0
          · rw [if_pos h2] at hc; omega
          · omega
        exact List.Lex.rel hlt
      · intro hc
        rcases lex_cons_inv hc with hlt | ⟨heq, _⟩
        · rw [if_neg (by omega)]
          omega
        · exact absurd heq h
    · rw [if_neg h]
      push_neg at h
      rw [ih (o1 + 1) (o2 + 1)]
      constructor
      · intro hc
        rw [h]
        exact List.Lex.cons hc
      · intro hc
        rw [h] at hc
        rcases lex_cons_inv hc with hlt | ⟨_, htail⟩
        · exact absurd hlt (lt_irrefl _)
        · exact htail

theorem cmpFrom_pos_iff (block : List Nat) (fuel o1 o2 : Nat) :
    0 < cmpFrom block fuel o1 o2 ↔
      List.Lex (· < ·) (seqFrom block o2 fuel) (seqFrom block o1 fuel) := by
  rw [← cmpFrom_neg_iff, cmpFrom_antisymm block fuel o1 o2]
  omega

theorem cmpFrom_le_zero_iff (block : List Nat) (fuel o1 o2 : Nat) :
    cmpFrom block fuel o1 o2 ≤ 0 ↔
      (seqFrom block o1 fuel = seqFrom block o2 fuel ∨
        List.Lex (· < ·) (seqFrom block o1 fuel) (seqFrom block o2 fuel)) := by
  rw [← cmpFrom_eq_zero_iff, ← cmpFrom_neg_iff]
  omega

/-- The rotation string is the cyclic byte sequence of the full block length
starting at the rotation offset. -/
theorem rotation_eq_seqFrom (block : List Nat) (a : Nat) :
    rotation block a = seqFrom block a block.length := by
  have hgen : ∀ fuel o, seqFrom block o fuel =
      (List.range fuel).map (fun t => block.getD ((o + t) % block.length) 0) := by
    intro fuel
    induction fuel with
    | zero => intro o; simp [seqFrom]
    | succ fuel ih =>
      intro o
      rw [seqFrom_succ, List.range_succ_eq_map, List.map_cons, ih (o + 1), List.map_map]
      refine List.cons_eq_cons.mpr ⟨by rw [Nat.add_zero], ?_⟩
      apply List.map_congr_left
      intro t _
      show block.getD ((o + 1 + t) % block.length) 0 = block.getD ((o + (t + 1)) % block.length) 0
      congr 2
      omega
  rw [rotation, hgen block.length a]

/-- For a block of length at least 2, a rotation string decomposes as its
two-byte prefix followed by the suffix compared by `comparePresorted`. -/
theorem rotation_decomp (block : List Nat) (a : Nat) (h2 : 2 ≤ block.length) :
    rotation block a =
      block.getD (a % block.length) 0 :: block.getD ((a + 1) % block.length) 0 ::
        seqFrom block (a + 2) (block.length - 2) := by
  rw [rotation_eq_seqFrom]
  conv_lhs => rw [show block.length = block.length - 2 + 1 + 1 by omega]
  rw [seqFrom_succ, seqFrom_succ]

end BWT

namespace BWT

/-! ## Rotation order bridges -/

theorem pairLt_irrefl (p : Nat × Nat) : ¬ pairLt p p := by
  simp [pairLt]

theorem pairLt_trans {p q s : Nat × Nat} (h1 : pairLt p q) (h2 : pairLt q s) : pairLt p s := by
  rcases h1 with h1 | ⟨h1a, h1b⟩ <;> rcases h2 with h2 | ⟨h2a, h2b⟩ <;>
    simp only [pairLt] <;> omega

theorem keyPair_eq_heads (block : List Nat) {a : Nat} (ha : a < block.length) :
    keyPair block a =
      (block.getD (a % block.length) 0, block.getD ((a + 1) % block.length) 0) := by
  rw [keyPair, Nat.mod_eq_of_lt ha]

/-- A strictly smaller two-byte prefix forces the full rotation strings into
strict lexicographic order. -/
theorem lex_rotation_of_pairLt (block : List Nat) {a b : Nat} (ha : a < block.length)
    (hb : b < block.length) (h : pairLt (keyPair block a) (keyPair block b)) :
    List.Lex (· < ·) (rotation block a) (rotation block b) := by
  rcases Nat.lt_or_ge block.length 2 with hn | hn
  · have hab : a = b := by omega
    subst hab
    exact absurd h (pairLt_irrefl _)
  · rw [rotation_decomp block a hn, rotation_decomp block b hn]
    rw [keyPair_eq_heads block ha, keyPair_eq_heads block hb] at h
    rcases h with h | ⟨h1, h2⟩
    · exact List.Lex.rel h
    · have h1' : block.getD (a % block.length) 0 = block.getD (b % block.length) 0 := h1
      rw [h1']
      exact List.Lex.cons (List.Lex.rel h2)

/-- When two rotations share their two-byte prefix, `comparePresorted`
decides exactly the lexicographic comparison of the full rotation strings. -/
theorem cmp_lex_iff_of_keyPair_eq (block : List Nat) {a b : Nat} (ha : a < block.length)
    (hb : b < block.length) (hkp : keyPair block a = keyPair block b) :
    (comparePresorted block a b < 0 ↔
      List.Lex (· < ·) (rotation block a) (rotation block b)) ∧
    (comparePresorted block a b = 0 ↔ rotation block a = rotation block b) := by
  rcases Nat.lt_or_ge block.length 2 with hn | hn
  · have hab : a = b := by omega
    subst hab
    have hself := cmpFrom_antisymm block (block.length - 2) (a + 2) (a + 2)
    constructor
    · constructor
      · intro h
        rw [comparePresorted] at h
        omega
      · intro h
        exact absurd h (fun hh => asymm hh hh)
    · constructor
      · intro _
        rfl
      · intro _
        rw [comparePresorted]
        omega
  · have h1 := cmpFrom_neg_iff block (block.length - 2) (a + 2) (b + 2)
    have h2 := cmpFrom_eq_zero_iff block (block.length - 2) (a + 2) (b + 2)
    rw [keyPair_eq_heads block ha, keyPair_eq_heads block hb, Prod.mk.injEq] at hkp
    obtain ⟨hk1, hk2⟩ := hkp
    rw [rotation_decomp block a hn, rotation_decomp block b hn]
    constructor
    · rw [comparePresorted, h1]
      constructor
      · intro h
        rw [hk1, hk2]
        exact List.Lex.cons (List.Lex.cons h)
      · intro h
        rw [hk1, hk2] at h
        rcases lex_cons_inv h with hl | ⟨_, h⟩
        · exact absurd hl (lt_irrefl _)
        · rcases lex_cons_inv h with hl | ⟨_, h⟩
          · exact absurd hl (lt_irrefl _)
          · exact h
    · rw [comparePresorted, h2]
      constructor
      · intro h
        rw [hk1, hk2, h]
      · intro h
        rw [hk1, hk2] at h
        exact (List.cons_eq_cons.mp (List.cons_eq_cons.mp h).2).2

/-! ## Transitivity and totality of the comparator -/

theorem cmp_antisymm (block : List Nat) (x y : Nat) :
    comparePresorted block x y = -comparePresorted block y x :=
  cmpFrom_antisymm block _ _ _

theorem cmp_trans_le (block : List Nat) {x y z : Nat}
    (h1 : comparePresorted block x y ≤ 0) (h2 : comparePresorted block y z ≤ 0) :
    comparePresorted block x z ≤ 0 := by
  rw [comparePresorted, cmpFrom_le_zero_iff] at h1 h2 ⊢
  rcases h1 with h1 | h1 <;> rcases h2 with h2 | h2
  · exact Or.inl (h1.trans h2)
  · exact Or.inr (h1 ▸ h2)
  · exact Or.inr (h2 ▸ h1)
  · exact Or.inr (Trans.trans h1 h2)

theorem cmp_trans_lt_le (block : List Nat) {x y z : Nat}
    (h1 : comparePresorted block x y < 0) (h2 : comparePresorted block y z ≤ 0) :
    comparePresorted block x z < 0 := by
  rw [comparePresorted, cmpFrom_neg_iff] at h1 ⊢
  rw [comparePresorted, cmpFrom_le_zero_iff] at h2
  rcases h2 with h2 | h2
  · exact h2 ▸ h1
  · exact Trans.trans h1 h2

theorem cmp_trans_le_lt (block : List Nat) {x y z : Nat}
    (h1 : comparePresorted block x y ≤ 0) (h2 : comparePresorted block y z < 0) :
    comparePresorted block x z < 0 := by
  rw [comparePresorted, cmpFrom_neg_iff] at h2 ⊢
  rw [comparePresorted, cmpFrom_le_zero_iff] at h1
  rcases h1 with h1 | h1
  · exact h1 ▸ h2
  · exact Trans.trans h1 h2

theorem cmp_zero_trans (block : List Nat) {x y z : Nat}
    (h1 : comparePresorted block x y = 0) (h2 : comparePresorted block y z = 0) :
    comparePresorted block x z = 0 := by
  rw [comparePresorted, cmpFrom_eq_zero_iff] at h1 h2 ⊢
  exact h1.trans h2

theorem cmp_total (block : List Nat) (x y : Nat) :
    comparePresorted block x y ≤ 0 ∨ comparePresorted block y x ≤ 0 := by
  have h := cmp_antisymm block x y
  omega

end BWT


namespace BWT

/-! ## The refinement pass, for every qsort-compliant run sort -/

theorem refineRunsWith_perm (block : List Nat) (sort : List Nat → List Nat)
    (hsort : QsortSpec block sort) :
    ∀ fuel l, l.length ≤ fuel → (refineRunsWith sort block fuel l).Perm l := by
  intro fuel
  induction fuel with
  | zero =>
    intro l hl
    cases l with
    | nil => simp [refineRunsWith]
    | cons r rest => simp at hl
  | succ fuel ih =>
    intro l hl
    cases l with
    | nil => simp [refineRunsWith]
    | cons r rest =>
      rw [refineRunsWith]
      have hperm1 :=
        (hsort (r :: rest.takeWhile (fun x => decide (keyPair block x = keyPair block r)))).1
      have hlen2 : (rest.dropWhile
          (fun x => decide (keyPair block x = keyPair block r))).length ≤ fuel := by
        have := (List.dropWhile_sublist
          (fun x => decide (keyPair block x = keyPair block r)) (l := rest)).length_le
        simp at hl
        omega
      refine (hperm1.append (ih _ hlen2)).trans ?_
      rw [List.cons_append, List.takeWhile_append_dropWhile]

theorem refineRunsWith_pairwise (block : List Nat) (sort : List Nat → List Nat)
    (hsort : QsortSpec block sort) :
    ∀ fuel l, l.length ≤ fuel → (∀ x ∈ l, x < block.length) →
      l.Pairwise (ord12 block) →
      (refineRunsWith sort block fuel l).Pairwise (rotLe block) := by
  intro fuel
  induction fuel with
  | zero =>
    intro l hl _ _
    cases l with
    | nil => simp [refineRunsWith]
    | cons r rest => simp at hl
  | succ fuel ih =>
    intro l hl hmem hord
    cases l with
    | nil => simp [refineRunsWith]
    | cons r rest =>
      rw [refineRunsWith]
      set p := fun x => decide (keyPair block x = keyPair block r) with hp
      set tw := rest.takeWhile p with htw
      set tl := rest.dropWhile p with htl
      have hsplit : (r :: tw) ++ tl = r :: rest := by
        rw [List.cons_append, htw, htl, List.takeWhile_append_dropWhile]
      have hrunkp : ∀ x ∈ r :: tw, keyPair block x = keyPair block r := by
        intro x hx
        rcases List.mem_cons.mp hx with rfl | hx2
        · rfl
        · have := List.mem_takeWhile_imp (htw ▸ hx2)
          rw [hp] at this
          exact of_decide_eq_true this
      have htlsub : tl.Sublist rest := htl ▸ List.dropWhile_sublist p
      have hhead : ∀ y ∈ rest, ord12 block r y := (List.pairwise_cons.mp hord).1
      have hrest : rest.Pairwise (ord12 block) := (List.pairwise_cons.mp hord).2
      have hkpy : ∀ y ∈ tl, pairLt (keyPair block r) (keyPair block y) := by
        cases htl2 : tl with
        | nil => intro y hy; simp at hy
        | cons z t2 =>
          have hz_mem : z ∈ rest := htlsub.mem (htl2 ▸ List.mem_cons_self z t2)
          have hz_not : ¬ keyPair block z = keyPair block r := by
            have h0 : 0 < (rest.dropWhile p).length := by
              rw [← htl, htl2]; simp
            have := List.dropWhile_get_zero_not p rest h0
            have hzget : (rest.dropWhile p).get ⟨0, h0⟩ = z := by
              have hcons : rest.dropWhile p = z :: t2 := by rw [← htl, htl2]
              simp [hcons]
            rw [hzget, hp] at this
            simpa using this
          have hpz : pairLt (keyPair block r) (keyPair block z) := by
            rcases hhead z hz_mem with h | ⟨h, _⟩
            · exact h
            · exact absurd h.symm hz_not
          intro y hy
          rcases List.mem_cons.mp hy with rfl | hy2
          · exact hpz
          · have htlpair : (z :: t2).Pairwise (ord12 block) := by
              rw [← htl2]
              exact List.Pairwise.sublist htlsub hrest
            rcases (List.pairwise_cons.mp htlpair).1 y hy2 with h | ⟨h, _⟩
            · exact pairLt_trans hpz h
            · exact h ▸ hpz
      rw [List.pairwise_append]
      refine ⟨?_, ?_, ?_⟩
      · -- within the sorted run, the comparator order is the rotation order
        refine ((hsort (r :: tw)).2).imp_of_mem ?_
        intro a b hma hmb hab
        have hma' : a ∈ r :: tw := (hsort (r :: tw)).1.mem_iff.mp hma
        have hmb' : b ∈ r :: tw := (hsort (r :: tw)).1.mem_iff.mp hmb
        have hman : a < block.length := hmem a (hsplit ▸ List.mem_append_left tl hma')
        have hmbn : b < block.length := hmem b (hsplit ▸ List.mem_append_left tl hmb')
        have hkab : keyPair block a = keyPair block b :=
          (hrunkp a hma').trans (hrunkp b hmb').symm
        obtain ⟨hiff1, hiff2⟩ := cmp_lex_iff_of_keyPair_eq block hman hmbn hkab
        by_cases hz : comparePresorted block a b = 0
        · exact Or.inr (hiff2.mp hz)
        · exact Or.inl (hiff1.mp (by omega))
      · refine ih tl ?_ ?_ ?_
        · have := (List.dropWhile_sublist p (l := rest)).length_le
          rw [← htl] at this
          simp at hl
          omega
        · intro x hx
          exact hmem x (List.mem_cons_of_mem r (htlsub.mem hx))
        · exact List.Pairwise.sublist htlsub hrest
      · intro x hx y hy
        have hx' : x ∈ r :: tw := (hsort (r :: tw)).1.mem_iff.mp hx
        have hy' : y ∈ tl := (refineRunsWith_perm block sort hsort fuel tl (by
          have := (List.dropWhile_sublist p (l := rest)).length_le
          rw [← htl] at this
          simp at hl
          omega)).mem_iff.mp hy
        have hxn : x < block.length := hmem x (hsplit ▸ List.mem_append_left tl hx')
        have hyn : y < block.length := hmem y (List.mem_cons_of_mem r (htlsub.mem hy'))
        have hplt : pairLt (keyPair block x) (keyPair block y) :=
          (hrunkp x hx') ▸ hkpy y hy'
        exact Or.inl (lex_rotation_of_pairLt block hxn hyn hplt)

/-- The executable model's stable insertion sort is one `qsort`-compliant
behaviour. -/
theorem insertionSort_qsortSpec (block : List Nat) :
    QsortSpec block (List.insertionSort (fun a b => comparePresorted block a b ≤ 0)) := by
  intro l
  haveI : IsTotal Nat (fun a b => comparePresorted block a b ≤ 0) := ⟨cmp_total block⟩
  haveI : IsTrans Nat (fun a b => comparePresorted block a b ≤ 0) :=
    ⟨fun _ _ _ h1 h2 => cmp_trans_le block h1 h2⟩
  exact ⟨List.perm_insertionSort _ l, List.sorted_insertionSort _ l⟩

/-- The executable refinement pass is the generic one instantiated with the
insertion sort. -/
theorem refineRunsGo_eq_with (block : List Nat) :
    ∀ fuel l, refineRunsGo block fuel l =
      refineRunsWith (List.insertionSort (fun a b => comparePresorted block a b ≤ 0))
        block fuel l := by
  intro fuel
  induction fuel with
  | zero =>
    intro l
    cases l with
    | nil => rfl
    | cons r rest => rfl
  | succ fuel ih =>
    intro l
    cases l with
    | nil => rfl
    | cons r rest =>
      rw [refineRunsGo, refineRunsWith, ih]

/-! ## Claim theorems: the sorted rotation order -/

/-- C3: the stable tie-break asserted by the claim is not a behaviour the
program guarantees.  `List.reverse` satisfies everything `qsort` promises
for the all-identical block `[5, 5]` — the comparator inspects the empty
suffix, so every pair of rotations is comparator-equal — yet under that
behaviour the refined rotation array is `[1, 0]`: the two byte-identical
rotations appear in descending start order, violating the claimed ascending
(stable) tie order. -/
theorem rotationIdx_stable_tie_not_guaranteed :
    QsortSpec [5, 5] List.reverse ∧
    refineRunsWith List.reverse [5, 5] (buildRotationIdx0 [5, 5] (buildV [5, 5])).length
      (buildRotationIdx0 [5, 5] (buildV [5, 5])) = [1, 0] ∧
    ¬ ([1, 0] : List Nat).Pairwise (rotBefore [5, 5]) := by
  refine ⟨?_, by decide, ?_⟩
  · intro l
    refine ⟨l.reverse_perm, ?_⟩
    refine List.pairwise_iff_forall_sublist.mpr ?_
    intro a b _
    show comparePresorted [5, 5] a b ≤ 0
    have h : comparePresorted [5, 5] a b = 0 := rfl
    omega
  · intro h
    have h1 : rotBefore [5, 5] 1 0 :=
      (List.pairwise_cons.mp h).1 0 (List.mem_singleton_self 0)
    rcases h1 with h1 | ⟨_, h1⟩
    · have e : rotation [5, 5] 1 = rotation [5, 5] 0 := by decide
      rw [e] at h1
      exact absurd h1 (fun hh => asymm hh hh)
    · omega

/-- C3 (amended): for every block processed by the forward transform and for
every behaviour the `qsort` call may exhibit (`QsortSpec`: each run comes
back as a comparator-non-descending permutation of itself), the refined
rotation-index array is a permutation of `[0, blockLen)` that lists the
cyclic rotations of the block in non-decreasing lexicographic order — runs
sharing a two-byte prefix resolved by the complete byte-by-byte cyclic
comparison, wrapping at the block length — with byte-identical rotations in
an unspecified relative order (`qsort` promises no stable tie-break). -/
theorem rotationIdx_sorted_any_qsort (block : List Nat) (h256 : ∀ b ∈ block, b < 256)
    (sort : List Nat → List Nat) (hsort : QsortSpec block sort) :
    (refineRunsWith sort block (buildRotationIdx0 block (buildV block)).length
        (buildRotationIdx0 block (buildV block))).Perm (List.range block.length) ∧
    (refineRunsWith sort block (buildRotationIdx0 block (buildV block)).length
        (buildRotationIdx0 block (buildV block))).Pairwise (rotLe block) := by
  by_cases hne : block = []
  · subst hne
    have h0 : refineRunsWith sort [] (buildRotationIdx0 [] (buildV [])).length
        (buildRotationIdx0 [] (buildV [])) = [] := rfl
    rw [h0]
    exact ⟨List.Perm.nil, List.Pairwise.nil⟩
  · obtain ⟨hperm0, hpair0⟩ := ridx0_perm_pairwise block hne h256
    constructor
    · exact (refineRunsWith_perm block sort hsort _ _ (le_refl _)).trans hperm0
    · refine refineRunsWith_pairwise block sort hsort _ _ (le_refl _) ?_ hpair0
      intro x hx
      have := hperm0.mem_iff.mp hx
      rw [List.mem_range] at this
      exact this

/-- Witness for `rotationIdx_sorted_any_qsort`: the insertion-sort instance
of `QsortSpec` at the block `[2, 0, 1, 1]`. -/
theorem rotationIdx_sorted_any_qsort_instance :
    (refineRunsWith (List.insertionSort (fun a b => comparePresorted [2, 0, 1, 1] a b ≤ 0))
        [2, 0, 1, 1] (buildRotationIdx0 [2, 0, 1, 1] (buildV [2, 0, 1, 1])).length
        (buildRotationIdx0 [2, 0, 1, 1] (buildV [2, 0, 1, 1]))).Perm
      (List.range (List.length [2, 0, 1, 1])) ∧
    (refineRunsWith (List.insertionSort (fun a b => comparePresorted [2, 0, 1, 1] a b ≤ 0))
        [2, 0, 1, 1] (buildRotationIdx0 [2, 0, 1, 1] (buildV [2, 0, 1, 1])).length
        (buildRotationIdx0 [2, 0, 1, 1] (buildV [2, 0, 1, 1]))).Pairwise
      (rotLe [2, 0, 1, 1]) :=
  rotationIdx_sorted_any_qsort [2, 0, 1, 1] (by decide) _ (insertionSort_qsortSpec [2, 0, 1, 1])

end BWT
